import Mathlib

/-!
Verification development for the slack_emoji_uploader repository
(src/slack_emoji_uploader/__init__.py).  The Python program is shallowly
embedded: pure fragments become Lean functions, the stateful main flow
becomes explicit state passing, and the fallible in-place list removal
becomes an Option-valued function.  Machine integers are modelled by Int
(Python integers are unbounded, so no wraparound is involved).
-/

namespace SlackEmojiUploader

/-- Embedding of the Image namedtuple: fields id, filename, remove_form.
Existing images carry filename = none and an opaque removal form; desired
images built in the upload loop carry remove_form = none.  The opaque
lxml form element is modelled as a Nat token compared by identity, which
matches Python tuple equality on namedtuples (lxml elements compare by
object identity). -/
structure Image where
  id : String
  filename : Option String
  removeForm : Option Nat
deriving DecidableEq, Repr

/-- Embedding of the resolved configparser section used by main: a finite
key/value list; lookup returns the first binding. -/
def Settings := List (String × String)

/-- Lookup of a key, Python settings.get(key): none when absent. -/
def Settings.get? (s : Settings) (key : String) : Option String :=
  (s.find? (fun p => p.1 = key)).map (fun p => p.2)

/-- Embedding of the Python membership test key in settings.keys(). -/
def Settings.hasKey (s : Settings) (key : String) : Bool :=
  (s.get? key).isSome

/-- Value of a key that is known to be present, Python settings[key]
(defaulting to the empty string when absent, which main never relies on
because it checks hasKey first). -/
def Settings.val (s : Settings) (key : String) : String :=
  (s.get? key).getD ""

/-- Key string built by the Python expression str(k) + ".id". -/
def idKey (k : Int) : String := toString k ++ ".id"

/-- Key string built by the Python expression str(k) + ".filename". -/
def fnKey (k : Int) : String := toString k ++ ".filename"

/-- Structural model of Python str.split with separator "|" on the list
of characters: the empty input yields one empty field, and each pipe
starts a new field. -/
def splitPipeChars : List Char → List (List Char)
  | [] => [[]]
  | c :: cs =>
    match splitPipeChars cs, decide (c = '|') with
    | r, true => [] :: r
    | [], false => [[c]]
    | g :: gs, false => (c :: g) :: gs

/-- Embedding of the Python expression value.split(sep) with sep = "|". -/
def splitPipe (s : String) : List String :=
  (splitPipeChars s.data).map (fun l => String.mk l)

/-- Embedding of the Python expression range(start, finish + 1) as the
inclusive integer interval. -/
def rangeIncl (start finish : Int) : List Int :=
  (List.range (finish + 1 - start).toNat).map (fun i => start + i)

/-- Occurrence count of a value in a list, used to reason about the
Python list operations remove and membership on possibly-duplicated
lists. -/
def cnt [DecidableEq α] (x : α) : List α → Nat
  | [] => 0
  | y :: ys => (if y = x then 1 else 0) + cnt x ys

/-- Concatenation of the lists produced for each element, modelling the
nested Python generator expressions in main. -/
def flatList (f : α → List β) : List α → List β
  | [] => []
  | x :: xs => f x ++ flatList f xs

/-- Embedding of Python list.remove(x): delete the first element equal
to x, or fail (ValueError) when no element is equal. -/
def listRemove : List Image → Image → Option (List Image)
  | [], _ => none
  | y :: ys, x =>
    if y = x then some ys
    else (listRemove ys x).map (fun r => y :: r)

/-- Embedding of the loop at the end of the removal phase of main: for
each image of the planned-removal tuple in order, existing_images.remove
is applied to the working view; the first failing removal raises. -/
def removeAll : List Image → List Image → Option (List Image)
  | [], view => some view
  | x :: xs, view =>
    match listRemove view x with
    | none => none
    | some v => removeAll xs v

/-- One insertion step of Python dict construction: an existing key keeps
its position and gets the new value, a new key is appended. -/
def dictInsert (d : List (String × String)) (k v : String) : List (String × String) :=
  if d.any (fun p => p.1 = k) then
    d.map (fun p => if p.1 = k then (k, v) else p)
  else d ++ [(k, v)]

/-- Embedding of the Python expression dict(zip(ids, filenames)).items():
insertion-ordered, last value wins per key, truncated to the shorter
input by zip. -/
def dictFromPairs (ps : List (String × String)) : List (String × String) :=
  ps.foldl (fun d p => dictInsert d p.1 p.2) []

/-- Embedding of the images tuple built in the upload loop of main from
the two raw configuration strings of one range position:
Image(identifier, filename, None) for each pair of
dict(zip(idsStr.split(sep), fnStr.split(sep))).items(). -/
def expandLists (idsStr fnStr : String) : List Image :=
  (dictFromPairs ((splitPipe idsStr).zip (splitPipe fnStr))).map
    (fun p => ⟨p.1, some p.2, none⟩)

/-- Expansion of one range position k in the upload loop of main: when
the key str(k) + ".id" is present the images tuple is built, pairing the
id list with settings.get(str(k) + ".filename") or the empty string;
when the key is absent the position only logs a warning (none). -/
def expandPosition (s : Settings) (k : Int) : Option (List Image) :=
  if s.hasKey (idKey k) then
    some (expandLists (s.val (idKey k)) ((s.get? (fnKey k)).getD ""))
  else none

/-- Embedding of the planned-removal tuple images_to_remove of main:
for each existing image (outer) and each range position (inner), the
image is listed when its id occurs in the pipe-split value of the
position's ".id" key. -/
def imagesToRemove (s : Settings) (start finish : Int) (existing : List Image) : List Image :=
  flatList
    (fun image =>
      (rangeIncl start finish).filterMap
        (fun k =>
          if s.hasKey (idKey k) && decide (image.id ∈ splitPipe (s.val (idKey k))) then
            some image
          else none))
    existing

/-- All desired images produced by configuration expansion over the
range, before the skip-if-already-present check. -/
def uploadsPlanned (s : Settings) (start finish : Int) : List Image :=
  flatList (fun k => (expandPosition s k).getD []) (rangeIncl start finish)

/-- Desired images that the upload loop of main actually dispatches (or,
in dry-run mode, reports): expansion filtered by the check
image.id in (image.id for image in existing_images) against the current
working view. -/
def uploadsDispatched (s : Settings) (start finish : Int) (existing : List Image) : List Image :=
  flatList
    (fun k =>
      ((expandPosition s k).getD []).filter
        (fun im => !decide (im.id ∈ existing.map Image.id)))
    (rangeIncl start finish)

/-- Command-line arguments of main that the reconciliation-and-dispatch
flow reads. -/
structure Args where
  start : Int
  finish : Int
  upload : Bool
  remove : Bool
  dryRun : Bool
  threads : Int
deriving DecidableEq, Repr

/-- Working view of currently known items after the removal phase of
main: when the remove flag is set, existing_images.remove has been
applied for every planned-removal image (none on ValueError); otherwise
the snapshot is unchanged. -/
def viewAfterRemoval (s : Settings) (a : Args) (snapshot : List Image) : Option (List Image) :=
  if a.remove then removeAll (imagesToRemove s a.start a.finish snapshot) snapshot
  else some snapshot

/-- The id occurs in the explicit-removal configuration of some position
of the range: the condition of imagesToRemove stated on ids alone. -/
def removalMatched (s : Settings) (start finish : Int) (i : String) : Prop :=
  ∃ k ∈ rangeIncl start finish,
    s.hasKey (idKey k) = true ∧ i ∈ splitPipe (s.val (idKey k))

/-- Externally visible actions of one run: the two remote mutation calls
(requests.post for a removal, executor.submit of reliably_upload for an
addition) and the two dry-run reports. -/
inductive Action where
  | removePost (im : Image)
  | uploadSubmit (im : Image)
  | wouldRemove (ids : List String)
  | wouldUpload (id : String)
deriving DecidableEq, Repr

/-- An action is a remote mutation (issues or schedules a network
write), as opposed to a dry-run report. -/
def isMutation : Action → Bool
  | .removePost _ => true
  | .uploadSubmit _ => true
  | _ => false

/-- Code-point lexicographic comparison of character lists, modelling
Python string comparison. -/
def charListLt : List Char → List Char → Bool
  | [], [] => false
  | [], _ :: _ => true
  | _ :: _, [] => false
  | a :: as, b :: bs =>
    if a.toNat < b.toNat then true
    else if b.toNat < a.toNat then false
    else charListLt as bs

/-- Strict comparison on strings via their character lists. -/
def strLtB (x y : String) : Bool := charListLt x.data y.data

/-- Insertion step used to model Python sorted() on id strings. -/
def insertSorted (x : String) : List String → List String
  | [] => [x]
  | y :: ys => if strLtB x y then x :: y :: ys else y :: insertSorted x ys

/-- Model of the Python expression sorted(ids) used in log messages. -/
def sortStrings (l : List String) : List String :=
  l.foldr insertSorted []

/-- Embedding of the loop of the remove function: one requests.post per
image in order; post im = false models the call raising, which aborts
the loop (the function has no per-item exception handling).  Returns the
issued calls and whether the loop completed. -/
def removeRun (post : Image → Bool) : List Image → List Action × Bool
  | [] => ([], true)
  | im :: ims =>
    if post im then
      let r := removeRun post ims
      (Action.removePost im :: r.1, r.2)
    else ([Action.removePost im], false)

/-- Actions of the upload loop for the dispatched images, in dispatch
order: a dry-run report or a task submission per image. -/
def uploadActs (dryRun : Bool) (ims : List Image) : List Action :=
  ims.map (fun im => if dryRun then Action.wouldUpload im.id else Action.uploadSubmit im)

/-- Embedding of the action trace of main after the snapshot is taken:
the removal phase (dry-run report, or the remove function driven by the
post outcome oracle), then the working-view update (ValueError aborts),
then the upload phase (ThreadPoolExecutor construction fails for a
non-positive thread count, aborting before any upload action).  The
Bool is false when the run aborted with an uncaught exception. -/
def mainTrace (s : Settings) (a : Args) (post : Image → Bool) (snapshot : List Image) :
    List Action × Bool :=
  let toRem := imagesToRemove s a.start a.finish snapshot
  let rp : List Action × Bool :=
    if a.remove then
      if a.dryRun then ([Action.wouldRemove (sortStrings (toRem.map Image.id))], true)
      else removeRun post toRem
    else ([], true)
  if rp.2 then
    match viewAfterRemoval s a snapshot with
    | none => (rp.1, false)
    | some view =>
      if a.upload then
        if a.threads ≤ 0 then (rp.1, false)
        else (rp.1 ++ uploadActs a.dryRun (uploadsDispatched s a.start a.finish view), true)
      else (rp.1, true)
  else (rp.1, false)

/-- The reconciliation plan of one run as main computes it: the
planned-removal tuple and the images the upload loop would dispatch
against the post-removal working view; none when the view update
raises. -/
def reconcilePlan (s : Settings) (a : Args) (snapshot : List Image) :
    Option (List Image × List Image) :=
  match viewAfterRemoval s a snapshot with
  | none => none
  | some view =>
    some ((if a.remove then imagesToRemove s a.start a.finish snapshot else []),
      uploadsDispatched s a.start a.finish view)

/-- Sizes of the uploading set of pending futures in the upload loop of
main, one entry before each dispatched task plus the final size.  T is
args.threads; each list entry of cs is the number of futures the
corresponding wait call with return_when FIRST_COMPLETED reports done
(at least one, since the call blocks until a future completes); n is the
current size.  Per task: if len(uploading) is at least T, wait and keep
not_done; in dry-run only log, otherwise submit one future. -/
def schedStates (T : Nat) (dryRun : Bool) : List Nat → Nat → List Nat
  | [], n => [n]
  | c :: cs, n =>
    let afterWait := if T ≤ n then n - c else n
    let afterStep := if dryRun then afterWait else afterWait + 1
    n :: schedStates T dryRun cs afterStep

/-- Python exceptions distinguished by the except clause of
reliably_upload: RuntimeError is caught there, anything else
propagates. -/
inductive PyErr where
  | runtimeError (msg : String)
  | other (msg : String)
deriving DecidableEq, Repr

/-- Log entry produced by reliably_upload for one image: the success
message with the filename and returned id, or the failure message with
the image id and the reason. -/
inductive UploadLog where
  | uploaded (filename : Option String) (returnedId : String)
  | failed (id : String) (reason : String)
deriving DecidableEq, Repr

/-- Embedding of reliably_upload.  The outcome argument stands for the
result of reliable_executor.reliably_execute(upload, image, settings).
Modelled from the spec: reliable_executor is an external dependency not
in the repository; per the spec its bounded retry surfaces exhaustion
and terminal failures as a RuntimeError, which this function's except
clause catches and logs with the image id and the reason; a success
returns the uploaded id, and any other exception would propagate. -/
def reliably_upload (image : Image) (outcome : Except PyErr String) :
    Except PyErr UploadLog :=
  match outcome with
  | .ok r => .ok (.uploaded image.filename r)
  | .error (.runtimeError msg) => .ok (.failed image.id msg)
  | .error (.other msg) => .error (.other msg)

/-- One reliably_upload task per image, as the scheduler of main runs
them; each task's outcome oracle gives the result of its wrapped
reliable execution. -/
def runUploadTasks (outcome : Image → Except PyErr String) (ims : List Image) :
    List (Except PyErr UploadLog) :=
  ims.map (fun im => reliably_upload im (outcome im))

/-! Shared lemmas about the embedding. -/

theorem cnt_append [DecidableEq α] (x : α) (l m : List α) :
    cnt x (l ++ m) = cnt x l + cnt x m := by
  induction l with
  | nil => simp [cnt]
  | cons y ys ih => simp [cnt, ih]; omega

theorem cnt_pos_iff_mem [DecidableEq α] {x : α} {l : List α} :
    0 < cnt x l ↔ x ∈ l := by
  induction l with
  | nil => simp [cnt]
  | cons y ys ih =>
    by_cases h : y = x
    · subst h; simp [cnt]
    · simp [cnt, h, ih, Ne.symm h]

theorem cnt_eq_zero_iff [DecidableEq α] {x : α} {l : List α} :
    cnt x l = 0 ↔ x ∉ l := by
  rw [← cnt_pos_iff_mem]; omega

theorem listRemove_cnt_eq {v v' : List Image} {x : Image}
    (h : listRemove v x = some v') : cnt x v' + 1 = cnt x v := by
  induction v generalizing v' with
  | nil => simp [listRemove] at h
  | cons z zs ih =>
    simp only [listRemove] at h
    by_cases hz : z = x
    · rw [if_pos hz] at h
      cases h
      simp [cnt, hz]
      omega
    · rw [if_neg hz] at h
      cases hw : listRemove zs x with
      | none => rw [hw] at h; cases h
      | some w =>
        rw [hw, Option.map_some'] at h
        cases h
        have := ih hw
        simp only [cnt, if_neg hz]
        omega

theorem listRemove_cnt_ne {v v' : List Image} {x y : Image}
    (h : listRemove v x = some v') (hxy : x ≠ y) : cnt y v' = cnt y v := by
  induction v generalizing v' with
  | nil => simp [listRemove] at h
  | cons z zs ih =>
    simp only [listRemove] at h
    by_cases hz : z = x
    · rw [if_pos hz] at h
      cases h
      have : ¬z = y := fun hc => hxy (hz ▸ hc)
      simp [cnt, this]
    · rw [if_neg hz] at h
      cases hw : listRemove zs x with
      | none => rw [hw] at h; cases h
      | some w =>
        rw [hw, Option.map_some'] at h
        cases h
        have := ih hw
        simp only [cnt]
        omega

theorem removeAll_cnt {L view v : List Image}
    (h : removeAll L view = some v) (y : Image) :
    cnt y v + cnt y L = cnt y view := by
  induction L generalizing view with
  | nil =>
    simp only [removeAll, Option.some.injEq] at h
    subst h; simp [cnt]
  | cons x xs ih =>
    simp only [removeAll] at h
    cases hr : listRemove view x with
    | none => rw [hr] at h; cases h
    | some w =>
      rw [hr] at h
      have h2 := ih h
      by_cases hxy : x = y
      · subst hxy
        have h1 := listRemove_cnt_eq hr
        simp [cnt]
        omega
      · have h1 := listRemove_cnt_ne hr hxy
        simp only [cnt, if_neg hxy]
        omega

theorem removeAll_none_of_lt {L view : List Image} {y : Image}
    (h : cnt y view < cnt y L) : removeAll L view = none := by
  cases hr : removeAll L view with
  | none => rfl
  | some v =>
    have := removeAll_cnt hr y
    omega

theorem cnt_flatList_of_mem [DecidableEq β] {x : α} {l : List α}
    (f : α → List β) (y : β) (hx : x ∈ l) :
    cnt y (f x) ≤ cnt y (flatList f l) := by
  induction l with
  | nil => cases hx
  | cons a t ih =>
    rcases List.mem_cons.mp hx with h | h
    · subst h; simp [flatList, cnt_append]
    · have := ih h; simp [flatList, cnt_append]; omega

theorem cnt_flatList_le [DecidableEq α] {y : α} (f : α → List α) (l : List α)
    (hy : 1 ≤ cnt y (f y)) :
    cnt y l ≤ cnt y (flatList f l) := by
  induction l with
  | nil => simp [cnt, flatList]
  | cons a t ih =>
    by_cases h : a = y
    · subst h; simp [cnt, flatList, cnt_append]; omega
    · simp [cnt, flatList, cnt_append, h]; omega

theorem cnt_filterMap_countP [DecidableEq β] (g : α → Option β) (x : β) (l : List α) :
    cnt x (l.filterMap g) = l.countP (fun k => decide (g k = some x)) := by
  induction l with
  | nil => simp [cnt]
  | cons a t ih =>
    cases hg : g a with
    | none => simp [List.filterMap_cons, hg, List.countP_cons, ih]
    | some b =>
      by_cases hb : b = x
      · subst hb; simp [List.filterMap_cons, hg, List.countP_cons, ih, cnt]; omega
      · simp [List.filterMap_cons, hg, List.countP_cons, ih, cnt, hb,
          fun h => hb (Option.some.inj h)]

theorem two_le_length_of_ne {l : List α} {a b : α}
    (ha : a ∈ l) (hb : b ∈ l) (hne : a ≠ b) : 2 ≤ l.length := by
  match l with
  | [] => cases ha
  | [x] =>
    rw [List.mem_singleton] at ha hb
    exact absurd (ha.trans hb.symm) hne
  | x :: y :: t => simp

theorem two_le_cnt_filterMap [DecidableEq β] {g : α → Option β} {x : β}
    {l : List α} {k1 k2 : α} (hk1 : k1 ∈ l) (hk2 : k2 ∈ l) (hne : k1 ≠ k2)
    (h1 : g k1 = some x) (h2 : g k2 = some x) :
    2 ≤ cnt x (l.filterMap g) := by
  rw [cnt_filterMap_countP, List.countP_eq_length_filter]
  refine two_le_length_of_ne (l := l.filter fun k => decide (g k = some x))
    (a := k1) (b := k2) ?_ ?_ hne
  · exact List.mem_filter.mpr ⟨hk1, by simp [h1]⟩
  · exact List.mem_filter.mpr ⟨hk2, by simp [h2]⟩

theorem one_le_cnt_filterMap [DecidableEq β] {g : α → Option β} {x : β}
    {l : List α} {k : α} (hk : k ∈ l) (h : g k = some x) :
    1 ≤ cnt x (l.filterMap g) := by
  rw [cnt_filterMap_countP]
  exact List.countP_pos_iff.mpr ⟨k, hk, by simp [h]⟩

theorem flatList_filter (f : α → List β) (p : β → Bool) (l : List α) :
    (flatList f l).filter p = flatList (fun x => (f x).filter p) l := by
  induction l with
  | nil => simp [flatList]
  | cons a t ih => simp [flatList, List.filter_append, ih]

theorem uploadsDispatched_eq_filter (s : Settings) (start finish : Int)
    (ex : List Image) :
    uploadsDispatched s start finish ex
      = (uploadsPlanned s start finish).filter
          (fun im => !decide (im.id ∈ ex.map Image.id)) := by
  rw [uploadsPlanned, flatList_filter]; rfl

theorem mem_dictInsert {d : List (String × String)} {k v : String}
    {pr : String × String} (h : pr ∈ dictInsert d k v) :
    pr ∈ d ∨ pr = (k, v) := by
  unfold dictInsert at h
  by_cases ha : d.any (fun p => p.1 = k)
  · rw [if_pos ha] at h
    obtain ⟨q, hq, hqe⟩ := List.mem_map.mp h
    by_cases hk : q.1 = k
    · right; rw [if_pos hk] at hqe; exact hqe.symm
    · left; rw [if_neg hk] at hqe; exact hqe ▸ hq
  · rw [if_neg ha] at h
    rcases List.mem_append.mp h with h | h
    · exact Or.inl h
    · exact Or.inr (List.mem_singleton.mp h)

theorem dictInsert_length_le (d : List (String × String)) (k v : String) :
    (dictInsert d k v).length ≤ d.length + 1 := by
  unfold dictInsert
  by_cases ha : d.any (fun p => p.1 = k)
  · rw [if_pos ha]; simp
  · rw [if_neg ha]; simp

theorem mem_dictFromPairs {ps : List (String × String)} {pr : String × String}
    (h : pr ∈ dictFromPairs ps) : pr ∈ ps := by
  suffices H : ∀ (ps d : List (String × String)),
      pr ∈ ps.foldl (fun d p => dictInsert d p.1 p.2) d → pr ∈ d ∨ pr ∈ ps by
    rcases H ps [] h with h | h
    · cases h
    · exact h
  intro ps
  induction ps with
  | nil => intro d h; exact Or.inl h
  | cons q t ih =>
    intro d h
    rcases ih (dictInsert d q.1 q.2) h with h | h
    · rcases mem_dictInsert h with h | h
      · exact Or.inl h
      · exact Or.inr (by simp [h])
    · exact Or.inr (List.mem_cons_of_mem _ h)

theorem dictFromPairs_length_le (ps : List (String × String)) :
    (dictFromPairs ps).length ≤ ps.length := by
  suffices H : ∀ (ps d : List (String × String)),
      (ps.foldl (fun d p => dictInsert d p.1 p.2) d).length ≤ d.length + ps.length by
    simpa using H ps []
  intro ps
  induction ps with
  | nil => intro d; simp
  | cons q t ih =>
    intro d
    have h1 := ih (dictInsert d q.1 q.2)
    have h2 := dictInsert_length_le d q.1 q.2
    simp only [List.foldl_cons, List.length_cons]
    omega

theorem removeRun_all_ok (post : Image → Bool) (L : List Image)
    (h : ∀ im ∈ L, post im = true) :
    removeRun post L = (L.map Action.removePost, true) := by
  induction L with
  | nil => rfl
  | cons im ims ih =>
    simp only [removeRun, h im (List.mem_cons_self im ims),
      ih (fun x hx => h x (List.mem_cons_of_mem _ hx)), if_true, List.map_cons]

theorem removeRun_stops (post : Image → Bool) (L1 L2 : List Image) (im : Image)
    (hok : ∀ x ∈ L1, post x = true) (hfail : post im = false) :
    removeRun post (L1 ++ im :: L2)
      = (L1.map Action.removePost ++ [Action.removePost im], false) := by
  induction L1 with
  | nil => simp [removeRun, hfail]
  | cons x xs ih =>
    have hx : post x = true := hok x (List.mem_cons_self x xs)
    simp only [List.cons_append, removeRun, hx, if_true, List.map_cons,
      List.append_eq]
    rw [ih (fun z hz => hok z (List.mem_cons_of_mem _ hz))]

theorem splitPipeChars_ne_nil (cs : List Char) : splitPipeChars cs ≠ [] := by
  induction cs with
  | nil => simp [splitPipeChars]
  | cons c t ih =>
    simp only [splitPipeChars]
    cases hr : splitPipeChars t with
    | nil => exact absurd hr ih
    | cons g gs => cases hc : decide (c = '|') <;> simp

theorem splitPipe_ne_nil (s : String) : splitPipe s ≠ [] := by
  unfold splitPipe
  intro h
  exact splitPipeChars_ne_nil s.data (List.map_eq_nil_iff.mp h)

/-! Claim theorems. -/

/-- C2: the uploading set of pending futures maintained by the upload
loop never holds more than args.threads tasks at any point, for every
task sequence and every pattern of completions.  Each wait call with
return_when FIRST_COMPLETED reports at least one future done, and the
loop is reached only when the ThreadPoolExecutor was constructed, which
requires a thread count of at least one. -/
theorem scheduler_never_exceeds_threads (T : Nat) (dryRun : Bool) (cs : List Nat)
    (hT : 1 ≤ T) (hcs : ∀ c ∈ cs, 1 ≤ c) :
    ∀ m ∈ schedStates T dryRun cs 0, m ≤ T := by
  suffices H : ∀ (cs : List Nat) (n : Nat), n ≤ T → (∀ c ∈ cs, 1 ≤ c) →
      ∀ m ∈ schedStates T dryRun cs n, m ≤ T from H cs 0 (by omega) hcs
  intro cs
  induction cs with
  | nil =>
    intro n hn _ m hm
    simp only [schedStates, List.mem_singleton] at hm
    omega
  | cons c t ih =>
    intro n hn hcs m hm
    have hc : 1 ≤ c := hcs c (List.mem_cons_self c t)
    simp only [schedStates, List.mem_cons] at hm
    rcases hm with rfl | hm
    · exact hn
    · refine ih _ ?_ (fun d hd => hcs d (List.mem_cons_of_mem _ hd)) m hm
      by_cases hw : T ≤ n <;> cases dryRun <;> simp [hw] <;> omega

/-- C2 witness: a concrete run with two worker slots and three tasks
stays within the bound. -/
theorem scheduler_never_exceeds_threads_witness :
    1 ≤ 2 ∧ (∀ c ∈ [1, 1, 1], 1 ≤ c) ∧
    ∀ m ∈ schedStates 2 false [1, 1, 1] 0, m ≤ 2 :=
  ⟨by decide, by decide,
    scheduler_never_exceeds_threads 2 false [1, 1, 1] (by decide) (by decide)⟩

/-- C6: when the wrapped reliable execution of an upload task fails
terminally (a RuntimeError, which per the spec of the external
reliable_executor covers retry-ceiling exhaustion), the failure is
caught at the item boundary by reliably_upload, logged with the item id
and the reason, and never re-raised; hence every task of a batch yields
an outcome and none aborts its siblings. -/
theorem upload_terminal_failure_contained (outcome : Image → Except PyErr String)
    (ims : List Image)
    (hshape : ∀ im msg, outcome im ≠ Except.error (PyErr.other msg)) :
    (∀ r ∈ runUploadTasks outcome ims, ∃ lg, r = Except.ok lg) ∧
    (∀ im msg, outcome im = Except.error (PyErr.runtimeError msg) →
      reliably_upload im (outcome im) = Except.ok (UploadLog.failed im.id msg)) := by
  constructor
  · intro r hr
    simp only [runUploadTasks, List.mem_map] at hr
    obtain ⟨im, _, rfl⟩ := hr
    cases ho : outcome im with
    | ok v => exact ⟨UploadLog.uploaded im.filename v, by simp [reliably_upload, ho]⟩
    | error e =>
      cases e with
      | runtimeError msg =>
        exact ⟨UploadLog.failed im.id msg, by simp [reliably_upload, ho]⟩
      | other msg => exact absurd ho (hshape im msg)
  · intro im msg hmsg
    rw [hmsg]
    rfl

/-- C6 witness: a task whose reliable execution fails terminally is
logged and produces an ok outcome. -/
theorem upload_terminal_failure_contained_witness :
    (∀ im msg, (fun _ : Image =>
        (Except.error (PyErr.runtimeError "terminal") : Except PyErr String)) im
      ≠ Except.error (PyErr.other msg)) ∧
    ((∀ r ∈ runUploadTasks
        (fun _ => (Except.error (PyErr.runtimeError "terminal") : Except PyErr String))
        [⟨"a", some "x", none⟩], ∃ lg, r = Except.ok lg) ∧
     (∀ im msg,
        (fun _ : Image =>
          (Except.error (PyErr.runtimeError "terminal") : Except PyErr String)) im
          = Except.error (PyErr.runtimeError msg) →
        reliably_upload im ((fun _ : Image =>
          (Except.error (PyErr.runtimeError "terminal") : Except PyErr String)) im)
          = Except.ok (UploadLog.failed im.id msg))) :=
  ⟨by simp, upload_terminal_failure_contained _ [⟨"a", some "x", none⟩] (by simp)⟩

/-- C7: when the pipe-split identifier list and filename list of a
position differ in length, expansion pairs them positionally via
dict(zip(...)) and produces at most the shorter length's worth of items,
each item coming from a positional pair; in particular ids "a|b" with
filenames "x" produce exactly the single item (a, x) and b is
dropped. -/
theorem mismatched_lists_truncate (idsStr fnStr : String)
    (_hne : (splitPipe idsStr).length ≠ (splitPipe fnStr).length) :
    (expandLists idsStr fnStr).length
        ≤ min (splitPipe idsStr).length (splitPipe fnStr).length ∧
    (∀ im ∈ expandLists idsStr fnStr,
        ∃ pr ∈ (splitPipe idsStr).zip (splitPipe fnStr),
          im = ⟨pr.1, some pr.2, none⟩) ∧
    expandLists "a|b" "x" = [⟨"a", some "x", none⟩] := by
  refine ⟨?_, ?_, by decide⟩
  · have h1 := dictFromPairs_length_le ((splitPipe idsStr).zip (splitPipe fnStr))
    have h2 : ((splitPipe idsStr).zip (splitPipe fnStr)).length
        = min (splitPipe idsStr).length (splitPipe fnStr).length :=
      List.length_zip _ _
    simp only [expandLists, List.length_map]
    omega
  · intro im him
    simp only [expandLists, List.mem_map] at him
    obtain ⟨pr, hpr, rfl⟩ := him
    exact ⟨pr, mem_dictFromPairs hpr, rfl⟩

/-- C7 witness: the scenario ids "a|b", filenames "x" satisfies the
mismatch hypothesis and yields the single truncated pair. -/
theorem mismatched_lists_truncate_witness :
    (splitPipe "a|b").length ≠ (splitPipe "x").length ∧
    ((expandLists "a|b" "x").length
        ≤ min (splitPipe "a|b").length (splitPipe "x").length ∧
     (∀ im ∈ expandLists "a|b" "x",
        ∃ pr ∈ (splitPipe "a|b").zip (splitPipe "x"),
          im = ⟨pr.1, some pr.2, none⟩) ∧
     expandLists "a|b" "x" = [⟨"a", some "x", none⟩]) :=
  ⟨by decide, mismatched_lists_truncate "a|b" "x" (by decide)⟩

/-- C8: the reconciliation plan is a pure function of the settings, the
argument range and flags, and the snapshot: computing it twice from
equal inputs with no mutation in between yields the identical plan. -/
theorem reconcile_plan_deterministic (s1 s2 : Settings) (a1 a2 : Args)
    (n1 n2 : List Image) (hs : s1 = s2) (ha : a1 = a2) (hn : n1 = n2) :
    reconcilePlan s1 a1 n1 = reconcilePlan s2 a2 n2 := by
  subst hs; subst ha; subst hn; rfl

/-- C8 witness: a concrete double computation of the plan agrees. -/
theorem reconcile_plan_deterministic_witness :
    reconcilePlan [("0.id", "a")] ⟨0, 0, true, true, false, 4⟩ [⟨"a", none, some 1⟩]
      = reconcilePlan [("0.id", "a")] ⟨0, 0, true, true, false, 4⟩
          [⟨"a", none, some 1⟩] :=
  reconcile_plan_deterministic _ _ _ _ _ _ rfl rfl rfl

/-- C10: at a position whose ".id" key is present but whose ".filename"
key is absent, expansion neither skips the position nor fails: the
missing filename value becomes the single-element list containing the
empty string, so exactly one item is produced, pairing the first
identifier with the empty source reference. -/
theorem missing_filename_single_empty (s : Settings) (k : Int)
    (hkey : s.hasKey (idKey k) = true) (hfn : s.get? (fnKey k) = none) :
    expandPosition s k
      = some [⟨(splitPipe (s.val (idKey k))).headD "", some "", none⟩] := by
  obtain ⟨i, rest, hsplit⟩ :=
    List.exists_cons_of_ne_nil (splitPipe_ne_nil (s.val (idKey k)))
  rw [expandPosition, if_pos hkey, hfn]
  have hone : splitPipe "" = [""] := by decide
  rw [Option.getD_none, expandLists, hone, hsplit, List.zip_cons_cons,
    List.zip_nil_right]
  simp [dictFromPairs, dictInsert]

/-- C10 witness: position 0 with only "0.id" configured yields one item
with an empty source reference. -/
theorem missing_filename_single_empty_witness :
    expandPosition [("0.id", "a|b")] 0 = some [⟨"a", some "", none⟩] :=
  (missing_filename_single_empty [("0.id", "a|b")] 0 (by decide) (by decide)).trans
    (by decide)

/-- C1: an image dispatched for upload never has an id present in the
snapshot returned by get_current_state unless that id was also in the
planned-removal tuple of the same run; and when an id appears both in
the explicit-removal configuration and among the expanded desired items
of a remove-enabled run, the removal takes precedence: the item is
dispatched (re-added) rather than skipped as already-present. -/
theorem uploads_skip_only_untouched (s : Settings) (a : Args)
    (snapshot v : List Image) (hv : viewAfterRemoval s a snapshot = some v) :
    (∀ im ∈ uploadsDispatched s a.start a.finish v,
        im.id ∈ snapshot.map Image.id →
        im.id ∈ (imagesToRemove s a.start a.finish snapshot).map Image.id) ∧
    (a.remove = true →
      ∀ im ∈ uploadsPlanned s a.start a.finish,
        removalMatched s a.start a.finish im.id →
        im ∈ uploadsDispatched s a.start a.finish v) := by
  constructor
  · intro im him hid
    rw [uploadsDispatched_eq_filter] at him
    have hfp := List.of_mem_filter him
    have hnotv : im.id ∉ v.map Image.id := by simpa using hfp
    by_contra hnot
    obtain ⟨y, hy, hyid⟩ := List.mem_map.mp hid
    have hcnt0 : cnt y (imagesToRemove s a.start a.finish snapshot) = 0 := by
      rw [cnt_eq_zero_iff]
      intro hmem
      exact hnot (List.mem_map.mpr ⟨y, hmem, hyid⟩)
    have hyv : y ∈ v := by
      by_cases hrem : a.remove = true
      · have hall : removeAll (imagesToRemove s a.start a.finish snapshot) snapshot
            = some v := by
          rw [viewAfterRemoval, if_pos hrem] at hv
          exact hv
        have hc := removeAll_cnt hall y
        have hy1 : 0 < cnt y snapshot := cnt_pos_iff_mem.mpr hy
        exact cnt_pos_iff_mem.mp (by omega)
      · rw [viewAfterRemoval, if_neg hrem] at hv
        cases hv
        exact hy
    exact hnotv (List.mem_map.mpr ⟨y, hyv, hyid⟩)
  · intro hrem im him hmatch
    have hall : removeAll (imagesToRemove s a.start a.finish snapshot) snapshot
        = some v := by
      rw [viewAfterRemoval, if_pos hrem] at hv
      exact hv
    have hnotv : im.id ∉ v.map Image.id := by
      intro hmemv
      obtain ⟨y, hyv, hyid⟩ := List.mem_map.mp hmemv
      obtain ⟨k, hk, hkey, hmemk⟩ := hmatch
      have h1 : 1 ≤ cnt y ((rangeIncl a.start a.finish).filterMap
          (fun kk =>
            if s.hasKey (idKey kk) && decide (y.id ∈ splitPipe (s.val (idKey kk))) then
              some y
            else none)) :=
        one_le_cnt_filterMap hk (by simp [hkey, hyid, hmemk])
      have h2 : cnt y snapshot ≤ cnt y (imagesToRemove s a.start a.finish snapshot) :=
        cnt_flatList_le _ snapshot h1
      have h3 := removeAll_cnt hall y
      have h4 : 0 < cnt y v := cnt_pos_iff_mem.mpr hyv
      omega
    rw [uploadsDispatched_eq_filter]
    exact List.mem_filter.mpr ⟨him, by simpa using hnotv⟩

/-- C1 witness: with the single existing image a configured for removal
and desired again, the view after removal is empty, the non-collision
property holds, and a is re-dispatched rather than skipped. -/
theorem uploads_skip_only_untouched_witness :
    (∀ im ∈ uploadsDispatched [("0.id", "a")] 0 0 ([] : List Image),
        im.id ∈ ([⟨"a", none, some 1⟩] : List Image).map Image.id →
        im.id ∈ (imagesToRemove [("0.id", "a")] 0 0
          [⟨"a", none, some 1⟩]).map Image.id) ∧
    (true = true →
      ∀ im ∈ uploadsPlanned [("0.id", "a")] 0 0,
        removalMatched [("0.id", "a")] 0 0 im.id →
        im ∈ uploadsDispatched [("0.id", "a")] 0 0 ([] : List Image)) :=
  uploads_skip_only_untouched [("0.id", "a")] ⟨0, 0, true, true, false, 4⟩
    [⟨"a", none, some 1⟩] [] (by decide)

/-- C3: under dry-run every action of the run's trace is a report; no
removal POST is issued and no upload task is submitted, for any
settings, flags, snapshot, and removal-call behaviour. -/
theorem dry_run_no_remote_mutations (s : Settings) (a : Args) (post : Image → Bool)
    (snapshot : List Image) (hdr : a.dryRun = true) :
    ∀ act ∈ (mainTrace s a post snapshot).1, isMutation act = false := by
  intro act hact
  have hwu : ∀ l, ∀ b ∈ uploadActs true l, isMutation b = false := by
    intro l b hb
    simp only [uploadActs, List.mem_map] at hb
    obtain ⟨w, _, rfl⟩ := hb
    rfl
  cases hrem : a.remove with
  | false =>
    cases hview : viewAfterRemoval s a snapshot with
    | none => simp [mainTrace, hdr, hrem, hview] at hact
    | some view =>
      by_cases hup : a.upload = true
      · by_cases hth : a.threads ≤ 0
        · simp [mainTrace, hdr, hrem, hview, hup, hth] at hact
        · simp [mainTrace, hdr, hrem, hview, hup, hth] at hact
          exact hwu _ act hact
      · simp [mainTrace, hdr, hrem, hview, hup] at hact
  | true =>
    cases hview : viewAfterRemoval s a snapshot with
    | none =>
      simp [mainTrace, hdr, hrem, hview] at hact
      rw [hact]; rfl
    | some view =>
      by_cases hup : a.upload = true
      · by_cases hth : a.threads ≤ 0
        · simp [mainTrace, hdr, hrem, hview, hup, hth] at hact
          rw [hact]; rfl
        · simp [mainTrace, hdr, hrem, hview, hup, hth] at hact
          rcases hact with rfl | hact
          · rfl
          · exact hwu _ act hact
      · simp [mainTrace, hdr, hrem, hview, hup] at hact
        rw [hact]; rfl

/-- C3 witness: a concrete dry-run with removal and upload enabled
produces a mutation-free trace. -/
theorem dry_run_no_remote_mutations_witness :
    ((mainTrace [("0.id", "a|b")] ⟨0, 0, true, true, true, 4⟩
        (fun _ => true) [⟨"a", none, some 1⟩]).1.all
      (fun act => !isMutation act)) = true :=
  List.all_eq_true.mpr (fun act hact => by
    rw [dry_run_no_remote_mutations [("0.id", "a|b")] ⟨0, 0, true, true, true, 4⟩
      (fun _ => true) [⟨"a", none, some 1⟩] rfl act hact]
    rfl)

/-- C4 counterexample: in a dry-run removal run no remote removal call
is issued at all, so no item is "successfully removed", yet the working
view still has the planned item removed — the view after the removal
phase is not the snapshot minus the successfully removed items, refuting
the claim at this input. -/
theorem view_update_ignores_remote_success_cex :
    (∀ act ∈ (mainTrace [("0.id", "a")] ⟨0, 0, false, true, true, 4⟩
        (fun _ => true) [⟨"a", none, some 1⟩]).1, isMutation act = false) ∧
    viewAfterRemoval [("0.id", "a")] ⟨0, 0, false, true, true, 4⟩
      [⟨"a", none, some 1⟩] = some [] ∧
    viewAfterRemoval [("0.id", "a")] ⟨0, 0, false, true, true, 4⟩
      [⟨"a", none, some 1⟩] ≠ some [⟨"a", none, some 1⟩] := by
  refine ⟨by decide, by decide, by decide⟩

/-- C4 amended: when the removal phase completes, the working view has
had removed from it exactly the planned-removal occurrences — one per
entry of the planned tuple — regardless of whether the remote removal
calls were issued (dry-run) or of their outcome. -/
theorem view_update_removes_planned (s : Settings) (a : Args)
    (snapshot v : List Image) (hrem : a.remove = true)
    (hv : viewAfterRemoval s a snapshot = some v) (y : Image) :
    cnt y v + cnt y (imagesToRemove s a.start a.finish snapshot) = cnt y snapshot := by
  rw [viewAfterRemoval, if_pos hrem] at hv
  exact removeAll_cnt hv y

/-- C4 amended witness: the concrete dry-run removal above removes
exactly the planned occurrence of a from the view. -/
theorem view_update_removes_planned_witness :
    cnt (⟨"a", none, some 1⟩ : Image) ([] : List Image)
        + cnt (⟨"a", none, some 1⟩ : Image)
            (imagesToRemove [("0.id", "a")] 0 0 [⟨"a", none, some 1⟩])
      = cnt (⟨"a", none, some 1⟩ : Image) [⟨"a", none, some 1⟩] :=
  view_update_removes_planned [("0.id", "a")] ⟨0, 0, false, true, true, 4⟩
    [⟨"a", none, some 1⟩] [] rfl (by decide) _

/-- C5 counterexample: both existing images a and c are planned for
removal, the removal call for a raises, and the run stops: the removal
of c is never issued, the addition phase never runs, and the failure is
not caught — refuting the claim that one removal failure does not block
the remaining removals and the addition phase. -/
theorem removal_failure_stops_run_cex :
    imagesToRemove [("0.id", "a|c")] 0 0 [⟨"a", none, some 1⟩, ⟨"c", none, some 2⟩]
      = [⟨"a", none, some 1⟩, ⟨"c", none, some 2⟩] ∧
    mainTrace [("0.id", "a|c")] ⟨0, 0, true, true, false, 4⟩
      (fun im => !decide (im.id = "a")) [⟨"a", none, some 1⟩, ⟨"c", none, some 2⟩]
      = ([Action.removePost ⟨"a", none, some 1⟩], false) := by
  refine ⟨by decide, by decide⟩

/-- C5 amended: a removal call that raises is not caught by the removal
loop: the run's trace ends at that call — the remaining planned removals
are never issued, the working-view update and the addition phase never
run, and the failure is not logged by the tool. -/
theorem removal_failure_aborts (s : Settings) (a : Args) (post : Image → Bool)
    (snapshot : List Image) (L1 L2 : List Image) (im : Image)
    (hrem : a.remove = true) (hdr : a.dryRun = false)
    (hsplit : imagesToRemove s a.start a.finish snapshot = L1 ++ im :: L2)
    (hok : ∀ x ∈ L1, post x = true) (hfail : post im = false) :
    mainTrace s a post snapshot
      = (L1.map Action.removePost ++ [Action.removePost im], false) := by
  have hrr := removeRun_stops post L1 L2 im hok hfail
  simp only [mainTrace, hrem, hdr, if_true, if_neg Bool.false_ne_true, hsplit, hrr]

/-- C5 amended witness: with the call for c failing after a succeeded,
the trace is the two issued calls and the aborted flag. -/
theorem removal_failure_aborts_witness :
    mainTrace [("0.id", "a|c")] ⟨0, 0, true, true, false, 4⟩
      (fun im => !decide (im.id = "c")) [⟨"a", none, some 1⟩, ⟨"c", none, some 2⟩]
      = ([Action.removePost ⟨"a", none, some 1⟩,
          Action.removePost ⟨"c", none, some 2⟩], false) :=
  removal_failure_aborts [("0.id", "a|c")] ⟨0, 0, true, true, false, 4⟩
    (fun im => !decide (im.id = "c")) [⟨"a", none, some 1⟩, ⟨"c", none, some 2⟩]
    [⟨"a", none, some 1⟩] [] ⟨"c", none, some 2⟩ rfl rfl (by decide) (by decide)
    (by decide)

/-- C9: when one existing image's id is configured for removal at two
distinct positions of the range, the planned-removal tuple contains the
image twice, the second existing_images.remove raises an unhandled
ValueError, and the run aborts before the addition phase. -/
theorem duplicate_removal_positions_raise (s : Settings) (a : Args)
    (snapshot : List Image) (x : Image) (k1 k2 : Int)
    (hrem : a.remove = true)
    (hk1 : k1 ∈ rangeIncl a.start a.finish) (hk2 : k2 ∈ rangeIncl a.start a.finish)
    (hne : k1 ≠ k2)
    (hkey1 : s.hasKey (idKey k1) = true) (hkey2 : s.hasKey (idKey k2) = true)
    (hmem1 : x.id ∈ splitPipe (s.val (idKey k1)))
    (hmem2 : x.id ∈ splitPipe (s.val (idKey k2)))
    (hcnt : cnt x snapshot = 1) :
    2 ≤ cnt x (imagesToRemove s a.start a.finish snapshot) ∧
    viewAfterRemoval s a snapshot = none ∧
    (mainTrace s a (fun _ => true) snapshot).2 = false := by
  have hxmem : x ∈ snapshot := cnt_pos_iff_mem.mp (by omega)
  have h2 : 2 ≤ cnt x ((rangeIncl a.start a.finish).filterMap
      (fun kk =>
        if s.hasKey (idKey kk) && decide (x.id ∈ splitPipe (s.val (idKey kk))) then
          some x
        else none)) :=
    two_le_cnt_filterMap hk1 hk2 hne (by simp [hkey1, hmem1]) (by simp [hkey2, hmem2])
  have h4 : 2 ≤ cnt x (imagesToRemove s a.start a.finish snapshot) :=
    le_trans h2 (cnt_flatList_of_mem
      (fun image : Image => (rangeIncl a.start a.finish).filterMap
        (fun kk =>
          if s.hasKey (idKey kk) && decide (image.id ∈ splitPipe (s.val (idKey kk))) then
            some image
          else none)) x hxmem)
  have h5 : viewAfterRemoval s a snapshot = none := by
    rw [viewAfterRemoval, if_pos hrem]
    exact @removeAll_none_of_lt (imagesToRemove s a.start a.finish snapshot)
      snapshot x (by omega)
  refine ⟨h4, h5, ?_⟩
  have hall : removeRun (fun _ => true) (imagesToRemove s a.start a.finish snapshot)
      = ((imagesToRemove s a.start a.finish snapshot).map Action.removePost, true) :=
    removeRun_all_ok _ _ (fun _ _ => rfl)
  cases hdr : a.dryRun with
  | false => simp [mainTrace, hrem, hdr, hall, h5]
  | true => simp [mainTrace, hrem, hdr, h5]

/-- C9 witness: the image a occurs once in the snapshot, is configured
for removal at positions 0 and 1, appears twice in the planned-removal
tuple, and the run aborts. -/
theorem duplicate_removal_positions_raise_witness :
    2 ≤ cnt (⟨"a", none, some 1⟩ : Image)
        (imagesToRemove [("0.id", "a"), ("1.id", "a")] 0 1 [⟨"a", none, some 1⟩]) ∧
    viewAfterRemoval [("0.id", "a"), ("1.id", "a")] ⟨0, 1, false, true, false, 4⟩
      [⟨"a", none, some 1⟩] = none ∧
    (mainTrace [("0.id", "a"), ("1.id", "a")] ⟨0, 1, false, true, false, 4⟩
      (fun _ => true) [⟨"a", none, some 1⟩]).2 = false :=
  duplicate_removal_positions_raise [("0.id", "a"), ("1.id", "a")]
    ⟨0, 1, false, true, false, 4⟩ [⟨"a", none, some 1⟩] ⟨"a", none, some 1⟩ 0 1
    rfl (by decide) (by decide) (by decide) (by decide) (by decide) (by decide)
    (by decide) (by decide)

end SlackEmojiUploader
